import Mathlib

/-!
Shallow embedding of `src/fts.py` (telescreen/Full-Text-Search):
the text-normalization pipeline (`tokenizer`, `filter_stopwords`, the
stemming hook, `analyze`), the inverted index (`addPosting`, the inner
loop of `index_documents`), and the query engine (`search` and the
`set.intersection` call of `FTSShell.do_search`).

Python strings are modelled as lists of characters, the global `index`
dict as an association list threaded explicitly, and the stopword set
(lazily loaded from `stopwords.txt`, external configuration) as an
explicit parameter.
-/

/-- A token: a Python string, modelled as a list of characters. -/
abbrev Tok := List Char

/-- The regex word-character class of Python (ASCII model): letters,
digits and the underscore. -/
def isWordChar (c : Char) : Bool := c.isAlphanum || c == '_'

/-- The apostrophe character (codepoint 39). -/
def apos : Char := Char.ofNat 39

/-- A character matched by the regex character class of word characters
plus the apostrophe. -/
def isWordOrApos (c : Char) : Bool := isWordChar c || c == apos

/-- The segment of a character run that reaches from its first word
character to its last word character (empty when the run has no word
character). -/
def stripNonWord (l : List Char) : List Char :=
  ((l.dropWhile (fun c => !(isWordChar c))).reverse.dropWhile
    (fun c => !(isWordChar c))).reverse

/-- The matches the regex of `tokenizer` produces inside one maximal run
of word-or-apostrophe characters.  Both alternatives of the pattern start
and end with a word character and allow apostrophes only in the middle,
and the scan is greedy and left to right, so a run yields exactly one
match: the segment from its first word character to its last word
character (a single word character falls back to the one-character
alternative); a run without any word character yields nothing. -/
def emitRun (cur : List Char) : List Tok :=
  match stripNonWord cur with
  | [] => []
  | c :: cs => [c :: cs]

/-- The scan of `re.findall` for the pattern of `tokenizer`: characters
belonging to the word-or-apostrophe class accumulate into the current
maximal run `cur`; any other character ends the run, which contributes
the match described at `emitRun` (no match can start, end, or continue
across such a character). -/
def tokenizeGo (cur : List Char) : List Char → List Tok
  | [] => emitRun cur
  | c :: rest =>
    if isWordOrApos c then tokenizeGo (cur ++ [c]) rest
    else emitRun cur ++ tokenizeGo [] rest

/-- `tokenizer` from fts.py: `re.findall` of the pattern matching either a
word character followed by word-or-apostrophe characters ending in a word
character, or a single word character. -/
def tokenizer (text : Tok) : List Tok := tokenizeGo [] text

/-- Python `str.lower`, character by character (ASCII model). -/
def lowerTok (w : Tok) : Tok := w.map Char.toLower

/-- `filter_stopwords` from fts.py: keep the tokens that are not in the
stopword set.  The Python version lazily loads the set from
`stopwords.txt` (external configuration) into a global; the set enters
here as a parameter. -/
def filter_stopwords (stopwords : List Tok) (tokens : List Tok) : List Tok :=
  tokens.filter (fun w => decide (w ∉ stopwords))

/-- `analyze` from fts.py: empty or absent text yields no tokens;
otherwise tokenize, lowercase every token, filter stopwords, and stem
every surviving token.  The stemmer (nltk PorterStemmer, an external
library) enters as the parameter `stem`. -/
def analyze (stem : Tok → Tok) (stopwords : List Tok) (text : Option Tok) : List Tok :=
  match text with
  | none => []
  | some t =>
    if t.length = 0 then []
    else (filter_stopwords stopwords ((tokenizer t).map lowerTok)).map stem

/-- A record of `load_documents`; the core reads only `doc_id` and
`abstract` (the body text, possibly absent). -/
structure Document where
  doc_id : Nat
  title : Tok
  url : Tok
  abstract : Option Tok
deriving DecidableEq

/-- The inverted index: the global Python dict from token to posting
list, modelled as an association list in insertion order. -/
abbrev Index := List (Tok × List Nat)

/-- Dict lookup, `index[token]` guarded by `token in index`. -/
def findPost (t : Tok) : Index → Option (List Nat)
  | [] => none
  | (k, v) :: rest => if t = k then some v else findPost t rest

/-- Dict update of an existing key: the key keeps its position. -/
def setPost (t : Tok) (l : List Nat) : Index → Index
  | [] => []
  | (k, v) :: rest =>
    if t = k then (t, l) :: setPost t l rest else (k, v) :: setPost t l rest

/-- The body of the inner loop of `index_documents`:
skip when the token is present and the last entry of its posting list
equals the document identifier, otherwise `setdefault` an empty list for
a new token (appended at the end of the dict) and append the identifier.
(On a token bound to an empty posting list the Python expression
`index[token][-1]` would raise IndexError; such a binding is never
created, posting lists are born as one-element lists and only appended
to, and this model appends in that unreachable case.) -/
def addPosting (idx : Index) (t : Tok) (d : Nat) : Index :=
  match findPost t idx with
  | some l => if l.getLast? = some d then idx else setPost t (l ++ [d]) idx
  | none => idx ++ [(t, [d])]

/-- `index_documents` from fts.py: for each document in order, analyze
its abstract and add a posting for every resulting token.  The `tqdm`
progress bar and the `measure_time` wrapper are telemetry only; the
global `index` is threaded explicitly. -/
def index_documents (stem : Tok → Tok) (stopwords : List Tok)
    (idx : Index) (docs : List Document) : Index :=
  docs.foldl
    (fun i doc =>
      (analyze stem stopwords doc.abstract).foldl
        (fun j token => addPosting j token doc.doc_id) i)
    idx

/-- The body of the loop of `search`: the loop state is the (read) index
together with the accumulating `doc_idx` list; a token that is in the
index appends the set of identifiers of its posting list, a token not in
the index leaves the state alone. -/
def searchStep (st : Index × List (Finset Nat)) (token : Tok) :
    Index × List (Finset Nat) :=
  match findPost token st.1 with
  | some l => (st.1, st.2 ++ [l.toFinset])
  | none => st

/-- `search` from fts.py: analyze the query text and run `searchStep`
over the resulting tokens, starting from the given index and an empty
`doc_idx`. -/
def search (stem : Tok → Tok) (stopwords : List Tok)
    (idx : Index) (term : Option Tok) : Index × List (Finset Nat) :=
  (analyze stem stopwords term).foldl searchStep (idx, [])

/-- The Python exception classes in play around `FTSShell.do_search`. -/
inductive PyError where
  | typeError
  | attributeError
deriving DecidableEq

/-- The call `set.intersection(*result_sets)` of `FTSShell.do_search`:
with zero sets the unbound call `set.intersection()` raises `TypeError`;
otherwise it intersects all the sets. -/
def set_intersection : List (Finset Nat) → Except PyError (Finset Nat)
  | [] => Except.error PyError.typeError
  | s :: rest => Except.ok (rest.foldl (fun a b => a ∩ b) s)

/-- The `except AttributeError` clause of `FTSShell.do_search`: the only
exception class the handler catches. -/
def do_search_catches : PyError → Bool
  | PyError.attributeError => true
  | PyError.typeError => false

/-- Modelled from the spec: the stemming algorithm is nltk's
PorterStemmer, an external library dependency, not code of this
repository.  The glossary of the spec fixes one concrete data point of
that algorithm (stemming maps "running" to "run") and treats `stem` as a
pluggable capability; this model realizes exactly the documented data
point and is the identity elsewhere. -/
def porterStem (w : Tok) : Tok :=
  if w = "running".data then "run".data else w

/-- The words of the spec for `addPosting`: append the identifier unless
the posting list is non-empty and its last entry already equals the
identifier; a new token starts from the empty list. -/
def addPostingSpecList : Option (List Nat) → Nat → List Nat
  | none, d => [d]
  | some l, d => if l ≠ [] ∧ l.getLast? = some d then l else l ++ [d]

/-- The token shape the claim about `tokenizer` states: a single word
character, or a word character followed by word-or-apostrophe
characters ending in a word character. -/
def TokenShape (tok : Tok) : Prop :=
  (∃ c, tok = [c] ∧ isWordChar c = true) ∨
  (∃ c mid d, tok = c :: (mid ++ [d]) ∧ isWordChar c = true ∧
    isWordChar d = true ∧ ∀ x ∈ mid, isWordOrApos x = true)

/-- The identity stemmer, used in concrete instances. -/
def idStem : Tok → Tok := fun w => w

def catTok : Tok := "cat".data

def dogTok : Tok := "dog".data

def catDogTok : Tok := "cat dog".data

def catCatTok : Tok := "cat cat".data

def runningTok : Tok := "running".data

def runTok : Tok := "run".data

def itsTok : Tok := ['i', 't', apos, 's']

def wellTok : Tok := "well".data

def knownTok : Tok := "known".data

def wellKnownTok : Tok := "well-known".data


theorem findPost_append_some (t : Tok) (l : List Nat) :
    ∀ (idx rest : Index), findPost t idx = some l →
      findPost t (idx ++ rest) = some l := by
  intro idx rest h
  induction idx with
  | nil => exact absurd h (by simp [findPost])
  | cons p tail ih =>
    obtain ⟨k, v⟩ := p
    by_cases hk : t = k
    · simp only [findPost, if_pos hk] at h
      simp only [List.cons_append, findPost, if_pos hk, h]
    · simp only [findPost, if_neg hk] at h
      simp only [List.cons_append, findPost, if_neg hk]
      exact ih h

theorem findPost_append_none (t : Tok) :
    ∀ (idx rest : Index), findPost t idx = none →
      findPost t (idx ++ rest) = findPost t rest := by
  intro idx rest h
  induction idx with
  | nil => simp
  | cons p tail ih =>
    obtain ⟨k, v⟩ := p
    by_cases hk : t = k
    · simp only [findPost, if_pos hk] at h
      exact Option.noConfusion h
    · simp only [findPost, if_neg hk] at h
      simp only [List.cons_append, findPost, if_neg hk]
      exact ih h

theorem findPost_setPost_same (t : Tok) (v : List Nat) :
    ∀ (idx : Index) (l : List Nat), findPost t idx = some l →
      findPost t (setPost t v idx) = some v := by
  intro idx
  induction idx with
  | nil => intro l h; exact Option.noConfusion h
  | cons p tail ih =>
    intro l h
    obtain ⟨k, w⟩ := p
    by_cases hk : t = k
    · subst hk
      simp [setPost, findPost]
    · simp only [findPost, if_neg hk] at h
      simp only [setPost, findPost, if_neg hk]
      exact ih l h

theorem findPost_setPost_other (t u : Tok) (v : List Nat) (hne : u ≠ t) :
    ∀ (idx : Index), findPost u (setPost t v idx) = findPost u idx := by
  intro idx
  induction idx with
  | nil => rfl
  | cons p tail ih =>
    obtain ⟨k, w⟩ := p
    by_cases hk : t = k
    · subst hk
      simp [setPost, findPost, hne, ih]
    · by_cases hu : u = k
      · subst hu
        simp [setPost, findPost, hk]
      · simp [setPost, findPost, hk, hu, ih]

theorem findPost_addPosting_self (idx : Index) (t : Tok) (d : Nat) :
    findPost t (addPosting idx t d) = some (addPostingSpecList (findPost t idx) d) := by
  cases hf : findPost t idx with
  | none =>
    simp only [addPosting, hf]
    rw [findPost_append_none t idx _ hf]
    simp [findPost, addPostingSpecList]
  | some l =>
    by_cases hl : l.getLast? = some d
    · have hne : l ≠ [] := by
        intro h0
        rw [h0] at hl
        exact Option.noConfusion hl
      simp only [addPosting, hf, if_pos hl]
      simp [addPostingSpecList, hne, hl]
    · simp only [addPosting, hf, if_neg hl]
      rw [findPost_setPost_same t (l ++ [d]) idx l hf]
      simp [addPostingSpecList, hl]

theorem findPost_addPosting_other (idx : Index) (t u : Tok) (d : Nat) (hne : u ≠ t) :
    findPost u (addPosting idx t d) = findPost u idx := by
  cases hf : findPost t idx with
  | none =>
    simp only [addPosting, hf]
    cases hu : findPost u idx with
    | none =>
      rw [findPost_append_none u idx _ hu]
      simp [findPost, hne]
    | some l => exact findPost_append_some u l idx _ hu
  | some l =>
    by_cases hl : l.getLast? = some d
    · simp only [addPosting, hf, if_pos hl]
    · simp only [addPosting, hf, if_neg hl]
      exact findPost_setPost_other t u (l ++ [d]) hne idx

/-- C4: inserting a posting creates the one-element list for a new token,
appends the identifier to an existing list unless that list already ends
with it, and in that case leaves the index unchanged; the resulting
posting list is exactly the one the spec's words (`addPostingSpecList`)
describe. -/
theorem addPosting_behavior (idx : Index) (t : Tok) (d : Nat) :
    findPost t (addPosting idx t d) = some (addPostingSpecList (findPost t idx) d) ∧
    (∀ l, findPost t idx = some l → l ≠ [] → l.getLast? = some d →
      addPosting idx t d = idx) := by
  refine ⟨findPost_addPosting_self idx t d, ?_⟩
  intro l hf hne hl
  simp only [addPosting, hf, if_pos hl]

/-- Witness for `addPosting_behavior`: a posting list already ending in
the inserted identifier is left unchanged. -/
theorem addPosting_behavior_witness :
    findPost catTok [(catTok, [3])] = some [3] ∧
    addPosting [(catTok, [3])] catTok 3 = [(catTok, [3])] := by
  refine ⟨by decide, ?_⟩
  exact (addPosting_behavior [(catTok, [3])] catTok 3).2 [3] (by decide)
    (by decide) (by decide)

/-- C8: `analyze` of an absent (None) text and `analyze` of the empty
string both return the empty sequence, for every stemmer and stopword
set. -/
theorem analyze_empty_and_none (stem : Tok → Tok) (stopwords : List Tok) :
    analyze stem stopwords none = [] ∧ analyze stem stopwords (some []) = [] :=
  ⟨rfl, rfl⟩

theorem searchStep_fst (st : Index × List (Finset Nat)) (token : Tok) :
    (searchStep st token).1 = st.1 := by
  unfold searchStep
  cases findPost token st.1 <;> rfl

theorem foldl_searchStep_fst :
    ∀ (toks : List Tok) (st : Index × List (Finset Nat)),
      (toks.foldl searchStep st).1 = st.1 := by
  intro toks
  induction toks with
  | nil => intro st; rfl
  | cons tok rest ih =>
    intro st
    rw [List.foldl_cons, ih, searchStep_fst]

theorem foldl_searchStep_snd :
    ∀ (toks : List Tok) (st : Index × List (Finset Nat)),
      (toks.foldl searchStep st).2
        = st.2 ++ toks.filterMap
            (fun token => (findPost token st.1).map List.toFinset) := by
  intro toks
  induction toks with
  | nil => intro st; simp
  | cons tok rest ih =>
    intro st
    rw [List.foldl_cons, ih, searchStep_fst]
    cases hf : findPost tok st.1 with
    | none =>
      have hstep : searchStep st tok = st := by
        unfold searchStep
        rw [hf]
      rw [hstep]
      simp [List.filterMap_cons, hf]
    | some l =>
      have hstep : searchStep st tok = (st.1, st.2 ++ [l.toFinset]) := by
        unfold searchStep
        rw [hf]
      rw [hstep]
      simp [List.filterMap_cons, hf]

theorem search_snd (stem : Tok → Tok) (stopwords : List Tok)
    (idx : Index) (term : Option Tok) :
    (search stem stopwords idx term).2
      = (analyze stem stopwords term).filterMap
          (fun token => (findPost token idx).map List.toFinset) := by
  unfold search
  rw [foldl_searchStep_snd (analyze stem stopwords term) (idx, [])]
  simp

/-- C9: for every stemmer, stopword set, index state and query text,
`search` leaves the inverted index unchanged: the index component of the
loop state after the search equals the starting index. -/
theorem search_preserves_index (stem : Tok → Tok) (stopwords : List Tok)
    (idx : Index) (term : Option Tok) :
    (search stem stopwords idx term).1 = idx := by
  unfold search
  exact foldl_searchStep_fst (analyze stem stopwords term) (idx, [])

/-- C6: a query analyzing to one indexed term followed by one term absent
from the index produces exactly the same search result as a query
analyzing to the indexed term alone: absent tokens are silently
skipped. -/
theorem search_skips_unindexed_term (stem : Tok → Tok) (stopwords : List Tok)
    (idx : Index) (q q2 : Option Tok) (a b : Tok)
    (hq : analyze stem stopwords q = [a, b])
    (hq2 : analyze stem stopwords q2 = [a])
    (ha : (findPost a idx).isSome)
    (hb : findPost b idx = none) :
    search stem stopwords idx q = search stem stopwords idx q2 := by
  have h1 : (search stem stopwords idx q).1 = (search stem stopwords idx q2).1 := by
    unfold search
    rw [foldl_searchStep_fst, foldl_searchStep_fst]
  have h2 : (search stem stopwords idx q).2 = (search stem stopwords idx q2).2 := by
    rw [search_snd, search_snd, hq, hq2]
    cases hfa : findPost a idx <;> simp [List.filterMap_cons, hfa, hb]
  exact Prod.ext h1 h2

def idxC6 : Index := [(catTok, [1])]

/-- Witness for `search_skips_unindexed_term`: with only "cat" indexed,
searching "cat dog" equals searching "cat". -/
theorem search_skips_unindexed_term_witness :
    analyze idStem [] (some catDogTok) = [catTok, dogTok] ∧
    analyze idStem [] (some catTok) = [catTok] ∧
    (findPost catTok idxC6).isSome = true ∧
    findPost dogTok idxC6 = none ∧
    search idStem [] idxC6 (some catDogTok) = search idStem [] idxC6 (some catTok) := by
  refine ⟨by decide, by decide, by decide, by decide, ?_⟩
  exact search_skips_unindexed_term idStem [] idxC6 (some catDogTok) (some catTok)
    catTok dogTok (by decide) (by decide) (by decide) (by decide)

/-- Counterexample for the claim about zero result sets: on the empty
index the query "cat" yields zero result sets, `set.intersection` raises
the builtin `TypeError` (there is no `EmptyQueryResult` anywhere in the
program), and the handler of `do_search` does not catch that class, so
the exception propagates uncaught out of the shell instead of surfacing
as a distinguishable domain error. -/
theorem resolve_zero_sets_typeerror_uncaught_cx :
    (search idStem [] [] (some catTok)).2 = [] ∧
    set_intersection ((search idStem [] [] (some catTok)).2)
      = Except.error PyError.typeError ∧
    do_search_catches PyError.typeError = false :=
  ⟨rfl, rfl, rfl⟩

/-- C2 amended: when no analyzed query token is found in the index (in
particular when the query normalizes to no tokens at all), `search`
returns zero result sets, `set.intersection` over them raises
`TypeError` rather than returning any default value, and `do_search`
catches only `AttributeError`, so the `TypeError` propagates uncaught. -/
theorem resolve_zero_matched_terms_fails (stem : Tok → Tok) (stopwords : List Tok)
    (idx : Index) (q : Option Tok)
    (h : ∀ tok ∈ analyze stem stopwords q, findPost tok idx = none) :
    (search stem stopwords idx q).2 = [] ∧
    set_intersection (search stem stopwords idx q).2
      = Except.error PyError.typeError ∧
    do_search_catches PyError.typeError = false := by
  have h2 : (search stem stopwords idx q).2 = [] := by
    rw [search_snd]
    rw [List.filterMap_eq_nil_iff]
    intro tok htok
    rw [h tok htok]
    rfl
  refine ⟨h2, ?_, rfl⟩
  rw [h2]
  rfl

/-- Witness for `resolve_zero_matched_terms_fails`: the empty index and
the query "dog". -/
theorem resolve_zero_matched_terms_fails_witness :
    analyze idStem [] (some dogTok) = [dogTok] ∧
    findPost dogTok ([] : Index) = none ∧
    ((search idStem [] [] (some dogTok)).2 = [] ∧
      set_intersection (search idStem [] [] (some dogTok)).2
        = Except.error PyError.typeError ∧
      do_search_catches PyError.typeError = false) := by
  refine ⟨by decide, rfl, ?_⟩
  exact resolve_zero_matched_terms_fails idStem [] [] (some dogTok) (fun tok _ => rfl)

/-- Counterexample for the claim that no element of `analyze`'s output is
a stopword: stopword filtering runs before stemming, so a stem may land
in the stopword set.  With the stopword set containing exactly "run",
analyzing "running" outputs "run", a stopword-set member. -/
theorem analyze_output_stopword_cx :
    runTok ∈ analyze porterStem [runTok] (some runningTok) := by decide

/-- C3 amended: `analyze` applies exactly tokenize, then lowercase, then
stopword-filter, then stem, and every output element is the stem of the
lowercasing of some raw token of the text whose lowercasing is not in
the stopword set; the no-stopword and lowercase guarantees hold of the
tokens before stemming, not necessarily after it. -/
theorem analyze_pipeline_order (stem : Tok → Tok) (stopwords : List Tok) (t : Tok) :
    analyze stem stopwords (some t)
        = (filter_stopwords stopwords ((tokenizer t).map lowerTok)).map stem ∧
    ∀ x ∈ analyze stem stopwords (some t),
      ∃ w, w ∈ tokenizer t ∧ lowerTok w ∉ stopwords ∧ x = stem (lowerTok w) := by
  have h1 : analyze stem stopwords (some t)
      = (filter_stopwords stopwords ((tokenizer t).map lowerTok)).map stem := by
    by_cases ht : t.length = 0
    · have ht2 : t = [] := List.length_eq_zero.mp ht
      subst ht2
      rfl
    · simp only [analyze]
      rw [if_neg ht]
  refine ⟨h1, ?_⟩
  intro x hx
  rw [h1] at hx
  obtain ⟨w2, hw2, hx2⟩ := List.mem_map.mp hx
  unfold filter_stopwords at hw2
  obtain ⟨hw2m, hw2f⟩ := List.mem_filter.mp hw2
  obtain ⟨w, hw, hlw⟩ := List.mem_map.mp hw2m
  subst hlw
  exact ⟨w, hw, of_decide_eq_true hw2f, hx2.symm⟩

/-- Witness for `analyze_pipeline_order`: the element "run" of the output
of analyzing "running" with the empty stopword set. -/
theorem analyze_pipeline_order_witness :
    runTok ∈ analyze porterStem [] (some runningTok) ∧
    (∃ w, w ∈ tokenizer runningTok ∧ lowerTok w ∉ ([] : List Tok) ∧
      runTok = porterStem (lowerTok w)) := by
  refine ⟨by decide, ?_⟩
  exact (analyze_pipeline_order porterStem [] runningTok).2 runTok (by decide)

def docA : Document := ⟨1, [], [], some catTok⟩

def docB : Document := ⟨2, [], [], some catTok⟩

/-- Counterexample for the claim that re-indexing is never idempotent:
on a single-document collection the second pass skips every token (the
last entry of each posting list is that document's identifier), so
calling `index_documents` twice equals calling it once. -/
theorem index_twice_not_always_different_cx :
    index_documents idStem [] (index_documents idStem [] [] [docA]) [docA]
      = index_documents idStem [] [] [docA] := by decide

/-- C5 amended: re-indexing is not idempotent in general: on a collection
of two documents sharing a token, calling `index_documents` twice against
the same index does not produce the same state as calling it once (the
second pass re-appends the identifiers). -/
theorem index_twice_shared_token_differs :
    index_documents idStem [] (index_documents idStem [] [] [docA, docB]) [docA, docB]
      ≠ index_documents idStem [] [] [docA, docB] := by decide

theorem addPostingSpecList_ne_nil (o : Option (List Nat)) (d : Nat) :
    addPostingSpecList o d ≠ [] := by
  cases o with
  | none => simp [addPostingSpecList]
  | some l =>
    simp only [addPostingSpecList]
    by_cases hc : l ≠ [] ∧ l.getLast? = some d
    · rw [if_pos hc]
      exact hc.1
    · rw [if_neg hc]
      simp

theorem findPost_addPosting_extends (idx : Index) (tk t : Tok) (d : Nat)
    (l : List Nat) (h : findPost t idx = some l) :
    ∃ l2, findPost t (addPosting idx tk d) = some (l ++ l2) := by
  by_cases ht : t = tk
  · subst ht
    have hself := findPost_addPosting_self idx t d
    rw [h] at hself
    simp only [addPostingSpecList] at hself
    by_cases hc : l ≠ [] ∧ l.getLast? = some d
    · rw [if_pos hc] at hself
      exact ⟨[], by rw [List.append_nil]; exact hself⟩
    · rw [if_neg hc] at hself
      exact ⟨[d], hself⟩
  · refine ⟨[], ?_⟩
    rw [List.append_nil, findPost_addPosting_other idx tk t d ht]
    exact h

theorem foldTokens_extends (did : Nat) :
    ∀ (toks : List Tok) (idx : Index) (t : Tok) (l : List Nat),
      findPost t idx = some l →
      ∃ l2, findPost t (toks.foldl (fun j token => addPosting j token did) idx)
        = some (l ++ l2) := by
  intro toks
  induction toks with
  | nil =>
    intro idx t l h
    exact ⟨[], by rw [List.append_nil]; exact h⟩
  | cons tok rest ih =>
    intro idx t l h
    obtain ⟨l2, h2⟩ := findPost_addPosting_extends idx tok t did l h
    obtain ⟨l3, h3⟩ := ih (addPosting idx tok did) t (l ++ l2) h2
    refine ⟨l2 ++ l3, ?_⟩
    rw [← List.append_assoc]
    exact h3

theorem index_documents_extends (stem : Tok → Tok) (stopwords : List Tok) :
    ∀ (docs : List Document) (idx : Index) (t : Tok) (l : List Nat),
      findPost t idx = some l →
      ∃ l2, findPost t (index_documents stem stopwords idx docs) = some (l ++ l2) := by
  intro docs
  induction docs with
  | nil =>
    intro idx t l h
    exact ⟨[], by rw [List.append_nil]; exact h⟩
  | cons doc rest ih =>
    intro idx t l h
    obtain ⟨l2, h2⟩ :=
      foldTokens_extends doc.doc_id (analyze stem stopwords doc.abstract) idx t l h
    obtain ⟨l3, h3⟩ := ih _ t (l ++ l2) h2
    refine ⟨l2 ++ l3, ?_⟩
    rw [← List.append_assoc]
    simpa [index_documents, List.foldl_cons] using h3

/-- Every posting list in the index is non-empty. -/
def PostsNonempty (idx : Index) : Prop :=
  ∀ t l, findPost t idx = some l → l ≠ []

theorem postsNonempty_addPosting (idx : Index) (tk : Tok) (d : Nat)
    (h : PostsNonempty idx) : PostsNonempty (addPosting idx tk d) := by
  intro t l hl
  by_cases ht : t = tk
  · subst ht
    rw [findPost_addPosting_self] at hl
    injection hl with hl2
    exact hl2 ▸ addPostingSpecList_ne_nil (findPost t idx) d
  · rw [findPost_addPosting_other idx tk t d ht] at hl
    exact h t l hl

theorem postsNonempty_foldTokens (did : Nat) :
    ∀ (toks : List Tok) (idx : Index), PostsNonempty idx →
      PostsNonempty (toks.foldl (fun j token => addPosting j token did) idx) := by
  intro toks
  induction toks with
  | nil => intro idx h; exact h
  | cons tok rest ih =>
    intro idx h
    rw [List.foldl_cons]
    exact ih _ (postsNonempty_addPosting idx tok did h)

theorem postsNonempty_index_documents (stem : Tok → Tok) (stopwords : List Tok) :
    ∀ (docs : List Document) (idx : Index), PostsNonempty idx →
      PostsNonempty (index_documents stem stopwords idx docs) := by
  intro docs
  induction docs with
  | nil => intro idx h; exact h
  | cons doc rest ih =>
    intro idx h
    have h2 := postsNonempty_foldTokens doc.doc_id
      (analyze stem stopwords doc.abstract) idx h
    have h3 := ih _ h2
    simpa [index_documents, List.foldl_cons] using h3

/-- C10: `index_documents` is append-only: a posting list present before
the call is a prefix of (an initial segment of) that token's posting
list after the call, and if every posting list was non-empty before, all
posting lists afterwards are non-empty as well (every list is born as a
one-element list and only ever appended to). -/
theorem index_documents_append_only (stem : Tok → Tok) (stopwords : List Tok)
    (idx : Index) (docs : List Document) :
    (∀ t l, findPost t idx = some l →
      ∃ l2, findPost t (index_documents stem stopwords idx docs) = some (l ++ l2)) ∧
    ((∀ t l, findPost t idx = some l → l ≠ []) →
      ∀ t l, findPost t (index_documents stem stopwords idx docs) = some l → l ≠ []) :=
  ⟨fun t l h => index_documents_extends stem stopwords docs idx t l h,
   fun h => postsNonempty_index_documents stem stopwords docs idx h⟩

def idxC10 : Index := [(catTok, [5])]

def docC10 : Document := ⟨1, [], [], some catTok⟩

/-- Witness for `index_documents_append_only`: indexing one "cat"
document on top of an index already holding "cat" at document 5. -/
theorem index_documents_append_only_witness :
    findPost catTok idxC10 = some [5] ∧
    (∃ l2, findPost catTok (index_documents idStem [] idxC10 [docC10])
      = some ([5] ++ l2)) ∧
    ([5, 1] : List Nat) ≠ [] := by
  have hne : ∀ t l, findPost t idxC10 = some l → l ≠ [] := by
    intro t l h
    simp only [idxC10, findPost] at h
    split at h
    · injection h with h2
      rw [← h2]
      simp
    · exact Option.noConfusion h
  refine ⟨by decide, ?_, ?_⟩
  · exact (index_documents_append_only idStem [] idxC10 [docC10]).1 catTok [5] (by decide)
  · exact (index_documents_append_only idStem [] idxC10 [docC10]).2 hne
      catTok [5, 1] (by decide)

/-- The invariant of the index while one document with identifier `did`
is being indexed: every posting list is duplicate-free, holds only
identifiers of previously finished documents (`old`) or `did`, and can
contain `did` only as its last entry. -/
def DocInv (old : List Nat) (did : Nat) (idx : Index) : Prop :=
  ∀ t l, findPost t idx = some l →
    l.Nodup ∧ (∀ x ∈ l, x ∈ old ∨ x = did) ∧ (did ∈ l → l.getLast? = some did)

/-- The invariant of the index between documents: every posting list is
duplicate-free and holds only identifiers from `ids`. -/
def IndexInv (ids : List Nat) (idx : Index) : Prop :=
  ∀ t l, findPost t idx = some l → l.Nodup ∧ ∀ x ∈ l, x ∈ ids

theorem indexInv_nil (ids : List Nat) : IndexInv ids [] := by
  intro t l hl
  exact Option.noConfusion hl

theorem docInv_of_indexInv (ids : List Nat) (did : Nat) (idx : Index)
    (hdid : did ∉ ids) (h : IndexInv ids idx) : DocInv ids did idx := by
  intro t l hl
  obtain ⟨h1, h2⟩ := h t l hl
  exact ⟨h1, fun x hx => Or.inl (h2 x hx), fun hin => absurd (h2 did hin) hdid⟩

theorem indexInv_of_docInv (old : List Nat) (did : Nat) (idx : Index)
    (h : DocInv old did idx) : IndexInv (old ++ [did]) idx := by
  intro t l hl
  obtain ⟨h1, h2, _⟩ := h t l hl
  refine ⟨h1, fun x hx => ?_⟩
  rcases h2 x hx with hx2 | hx2
  · exact List.mem_append_left _ hx2
  · exact List.mem_append_right _ (by simp [hx2])

theorem docInv_addPosting (old : List Nat) (did : Nat) (idx : Index) (tk : Tok)
    (h : DocInv old did idx) : DocInv old did (addPosting idx tk did) := by
  intro t l hl
  by_cases ht : t = tk
  · subst ht
    have hself := findPost_addPosting_self idx t did
    rw [hl] at hself
    injection hself with hspec
    cases hf : findPost t idx with
    | none =>
      rw [hf] at hspec
      simp only [addPostingSpecList] at hspec
      subst hspec
      exact ⟨by simp, fun x hx => Or.inr (by simpa using hx), fun _ => rfl⟩
    | some l0 =>
      rw [hf] at hspec
      obtain ⟨h1, h2, h3⟩ := h t l0 hf
      simp only [addPostingSpecList] at hspec
      by_cases hc : l0 ≠ [] ∧ l0.getLast? = some did
      · rw [if_pos hc] at hspec
        subst hspec
        exact ⟨h1, h2, fun _ => hc.2⟩
      · rw [if_neg hc] at hspec
        have hnotin : did ∉ l0 := by
          intro hin
          exact hc ⟨List.ne_nil_of_mem hin, h3 hin⟩
        subst hspec
        refine ⟨?_, ?_, fun _ => List.getLast?_concat l0⟩
        · rw [List.nodup_append]
          refine ⟨h1, List.nodup_singleton did, fun x hx hx2 => ?_⟩
          rw [List.mem_singleton] at hx2
          exact hnotin (hx2 ▸ hx)
        · intro x hx
          rcases List.mem_append.mp hx with hx2 | hx2
          · exact h2 x hx2
          · exact Or.inr (by simpa using hx2)
  · rw [findPost_addPosting_other idx tk t did ht] at hl
    exact h t l hl

theorem docInv_foldTokens (old : List Nat) (did : Nat) :
    ∀ (toks : List Tok) (idx : Index), DocInv old did idx →
      DocInv old did (toks.foldl (fun j token => addPosting j token did) idx) := by
  intro toks
  induction toks with
  | nil => intro idx h; exact h
  | cons tok rest ih =>
    intro idx h
    rw [List.foldl_cons]
    exact ih _ (docInv_addPosting old did idx tok h)

theorem indexInv_index_documents (stem : Tok → Tok) (stopwords : List Tok) :
    ∀ (docs : List Document) (ids : List Nat) (idx : Index),
      IndexInv ids idx → (∀ d ∈ docs, d.doc_id ∉ ids) →
      (docs.map Document.doc_id).Nodup →
      IndexInv (ids ++ docs.map Document.doc_id)
        (index_documents stem stopwords idx docs) := by
  intro docs
  induction docs with
  | nil =>
    intro ids idx hinv _ _
    simpa [index_documents] using hinv
  | cons doc rest ih =>
    intro ids idx hinv hnot hnodup
    have hdid : doc.doc_id ∉ ids := hnot doc (by simp)
    have hdoc : DocInv ids doc.doc_id idx :=
      docInv_of_indexInv ids doc.doc_id idx hdid hinv
    have hdoc2 := docInv_foldTokens ids doc.doc_id
      (analyze stem stopwords doc.abstract) idx hdoc
    have hinv2 := indexInv_of_docInv ids doc.doc_id _ hdoc2
    simp only [List.map_cons, List.nodup_cons] at hnodup
    have hnot2 : ∀ d ∈ rest, d.doc_id ∉ ids ++ [doc.doc_id] := by
      intro d hd
      simp only [List.mem_append, List.mem_singleton]
      rintro (hc | hc)
      · exact hnot d (List.mem_cons_of_mem doc hd) hc
      · exact hnodup.1 (hc ▸ List.mem_map_of_mem Document.doc_id hd)
    have hres := ih (ids ++ [doc.doc_id]) _ hinv2 hnot2 hnodup.2
    have hids : ids ++ (doc :: rest).map Document.doc_id
        = (ids ++ [doc.doc_id]) ++ rest.map Document.doc_id := by
      simp
    rw [hids]
    simpa [index_documents, List.foldl_cons] using hres

/-- C1: after one indexing pass from the empty index over a collection of
pairwise distinct document identifiers, every posting list contains every
document's identifier at most once, no matter how often the token occurs
in a document's body. -/
theorem index_once_posting_at_most_once (stem : Tok → Tok) (stopwords : List Tok)
    (docs : List Document) (hnodup : (docs.map Document.doc_id).Nodup) :
    ∀ t l, findPost t (index_documents stem stopwords [] docs) = some l →
      ∀ d ∈ docs, List.count d.doc_id l ≤ 1 := by
  have hinv := indexInv_index_documents stem stopwords docs [] []
    (indexInv_nil []) (by simp) hnodup
  intro t l hl d _
  obtain ⟨h1, _⟩ := hinv t l hl
  exact List.nodup_iff_count_le_one.mp h1 d.doc_id

def docsC1 : List Document := [⟨1, [], [], some catCatTok⟩, ⟨2, [], [], some catTok⟩]

/-- Witness for `index_once_posting_at_most_once`: document 1 contains
"cat" twice, yet after indexing the posting list of "cat" is `[1, 2]` and
holds identifier 1 only once. -/
theorem index_once_posting_at_most_once_witness :
    (docsC1.map Document.doc_id).Nodup ∧
    findPost catTok (index_documents idStem [] [] docsC1) = some [1, 2] ∧
    List.count 1 ([1, 2] : List Nat) ≤ 1 := by
  refine ⟨by decide, by decide, ?_⟩
  exact index_once_posting_at_most_once idStem [] docsC1 (by decide) catTok [1, 2]
    (by decide) ⟨1, [], [], some catCatTok⟩ (by decide)

theorem dropWhile_cons_head {α : Type} (p : α → Bool) :
    ∀ (l : List α) (x : α) (xs : List α), l.dropWhile p = x :: xs → p x = false := by
  intro l
  induction l with
  | nil => intro x xs h; exact List.noConfusion h
  | cons a as ih =>
    intro x xs h
    rw [List.dropWhile_cons] at h
    by_cases hp : p a
    · rw [if_pos hp] at h
      exact ih x xs h
    · rw [if_neg hp] at h
      injection h with h1 h2
      rw [← h1]
      cases hb : p a with
      | true => exact absurd hb hp
      | false => rfl

theorem mem_of_mem_stripNonWord (l : List Char) (x : Char)
    (hx : x ∈ stripNonWord l) : x ∈ l := by
  unfold stripNonWord at hx
  rw [List.mem_reverse] at hx
  have h1 := (List.dropWhile_sublist _).subset hx
  rw [List.mem_reverse] at h1
  exact (List.dropWhile_sublist _).subset h1

theorem stripNonWord_append_takeWhile (l : List Char) :
    stripNonWord l
        ++ ((l.dropWhile (fun c => !(isWordChar c))).reverse.takeWhile
              (fun c => !(isWordChar c))).reverse
      = l.dropWhile (fun c => !(isWordChar c)) := by
  unfold stripNonWord
  rw [← List.reverse_append, List.takeWhile_append_dropWhile, List.reverse_reverse]

theorem stripNonWord_head_word (l : List Char) (c : Char) (cs : List Char)
    (h : stripNonWord l = c :: cs) : isWordChar c = true := by
  have key := stripNonWord_append_takeWhile l
  rw [h, List.cons_append] at key
  have h2 := dropWhile_cons_head (fun c => !(isWordChar c)) l c _ key.symm
  simpa using h2

theorem stripNonWord_last_word (l : List Char) (d : Char)
    (h : (stripNonWord l).getLast? = some d) : isWordChar d = true := by
  unfold stripNonWord at h
  rw [List.getLast?_reverse] at h
  cases hb : (l.dropWhile (fun c => !(isWordChar c))).reverse.dropWhile
      (fun c => !(isWordChar c)) with
  | nil => rw [hb] at h; exact Option.noConfusion h
  | cons y ys =>
    rw [hb] at h
    injection h with h2
    have h3 := dropWhile_cons_head (fun c => !(isWordChar c))
      (l.dropWhile (fun c => !(isWordChar c))).reverse y ys hb
    rw [← h2]
    simpa using h3

theorem emitRun_shape (cur : List Char)
    (hcur : ∀ x ∈ cur, isWordOrApos x = true) :
    ∀ tok ∈ emitRun cur, TokenShape tok := by
  intro tok htok
  cases hs : stripNonWord cur with
  | nil =>
    simp only [emitRun, hs] at htok
    exact absurd htok (List.not_mem_nil tok)
  | cons c cs =>
    simp only [emitRun, hs, List.mem_singleton] at htok
    subst htok
    have hc : isWordChar c = true := stripNonWord_head_word cur c cs hs
    rcases List.eq_nil_or_concat cs with hnil | ⟨mid, d, hmid⟩
    · subst hnil
      exact Or.inl ⟨c, rfl, hc⟩
    · rw [List.concat_eq_append] at hmid
      subst hmid
      have hd : isWordChar d = true := by
        refine stripNonWord_last_word cur d ?_
        rw [hs, ← List.cons_append]
        exact List.getLast?_concat _
      refine Or.inr ⟨c, mid, d, rfl, hc, hd, fun x hx => ?_⟩
      have hx2 : x ∈ stripNonWord cur := by
        rw [hs]
        exact List.mem_cons_of_mem c (List.mem_append_left _ hx)
      exact hcur x (mem_of_mem_stripNonWord cur x hx2)

theorem tokenizeGo_shape :
    ∀ (rest cur : List Char), (∀ x ∈ cur, isWordOrApos x = true) →
      ∀ tok ∈ tokenizeGo cur rest, TokenShape tok := by
  intro rest
  induction rest with
  | nil => intro cur hcur; exact emitRun_shape cur hcur
  | cons c rest2 ih =>
    intro cur hcur tok htok
    simp only [tokenizeGo] at htok
    by_cases hc : isWordOrApos c
    · rw [if_pos hc] at htok
      refine ih (cur ++ [c]) ?_ tok htok
      intro x hx
      rcases List.mem_append.mp hx with hx2 | hx2
      · exact hcur x hx2
      · rw [List.mem_singleton] at hx2
        rw [hx2]
        exact hc
    · rw [if_neg hc] at htok
      rcases List.mem_append.mp htok with h2 | h2
      · exact emitRun_shape cur hcur tok h2
      · exact ih [] (fun x hx => absurd hx (List.not_mem_nil x)) tok h2

/-- C7: every token `tokenizer` produces is either a single word
character, or a word character followed by word-or-apostrophe characters
ending in a word character; the empty string tokenizes to the empty
sequence; the string "it's" is one token and "well-known" splits into
two tokens at the hyphen. -/
theorem tokenizer_token_shape :
    tokenizer [] = [] ∧
    (∀ (text : Tok) (tok : Tok), tok ∈ tokenizer text → TokenShape tok) ∧
    tokenizer itsTok = [itsTok] ∧
    tokenizer wellKnownTok = [wellTok, knownTok] := by
  refine ⟨rfl, ?_, by decide, by decide⟩
  intro text tok htok
  exact tokenizeGo_shape text [] (fun x hx => absurd hx (List.not_mem_nil x)) tok htok

/-- Witness for `tokenizer_token_shape`: the token produced from "it's"
has the claimed shape. -/
theorem tokenizer_token_shape_witness :
    itsTok ∈ tokenizer itsTok ∧ TokenShape itsTok := by
  refine ⟨by decide, ?_⟩
  exact tokenizer_token_shape.2.1 itsTok itsTok (by decide)
